import Mathlib

/-!
Shallow embedding of the path-tracing core in
`src/Ray_Tracing/Ray_Tracing/PathTracing.h`.

C++ floats/doubles are embedded as real numbers; the global random
generator (`default_random_engine generator` together with
`uniform_real_distribution<double> distribution(0.0, 1.0)`) is embedded as
an explicit stream `rng : ℕ → ℝ` with a cursor position threaded through
the computation, so that each `distribution(generator)` call reads
`rng pos` and advances the cursor.  `castRay` is embedded twice: a
fuel-indexed total function `castRayF` (returning `none` when the fuel is
exhausted before the depth guard fires) and the bounded `castRay` run with
enough fuel; termination of the C++ recursion is the theorem that past an
explicit fuel bound the result exists and no longer depends on the fuel.
The result record carries instrumentation (number of intersection queries
and recursive `castRay` invocations performed) next to the returned color.
-/

/-- Embedding of `Vec3f` from the geometry header (not under `src/`): three real
components.  Modelled from the spec: Vector3 with componentwise
arithmetic, dot and cross product, normalization. -/
@[ext]
structure Vec3 where
  x : ℝ
  y : ℝ
  z : ℝ

namespace Vec3

noncomputable instance : Add Vec3 := ⟨fun a b => ⟨a.x + b.x, a.y + b.y, a.z + b.z⟩⟩

noncomputable instance : Sub Vec3 := ⟨fun a b => ⟨a.x - b.x, a.y - b.y, a.z - b.z⟩⟩

noncomputable instance : Neg Vec3 := ⟨fun a => ⟨-a.x, -a.y, -a.z⟩⟩

instance : Zero Vec3 := ⟨⟨0, 0, 0⟩⟩

/-- Scalar times vector (`2 * I.dotProduct(N) * N`). -/
noncomputable instance : HMul ℝ Vec3 Vec3 := ⟨fun s v => ⟨s * v.x, s * v.y, s * v.z⟩⟩

/-- Vector times scalar (`lightIntensity * m->ks * pow(...)`). -/
noncomputable instance : HMul Vec3 ℝ Vec3 := ⟨fun v s => ⟨v.x * s, v.y * s, v.z * s⟩⟩

/-- Componentwise vector product (`m->ka*Color`, `indirectLigthing*m->kd`). -/
noncomputable instance : HMul Vec3 Vec3 Vec3 :=
  ⟨fun a b => ⟨a.x * b.x, a.y * b.y, a.z * b.z⟩⟩

/-- Vector divided by scalar. -/
noncomputable instance : HDiv Vec3 ℝ Vec3 := ⟨fun v s => ⟨v.x / s, v.y / s, v.z / s⟩⟩

noncomputable def dotProduct (a b : Vec3) : ℝ := a.x * b.x + a.y * b.y + a.z * b.z

noncomputable def crossProduct (a b : Vec3) : Vec3 :=
  ⟨a.y * b.z - a.z * b.y, a.z * b.x - a.x * b.z, a.x * b.y - a.y * b.x⟩

/-- Euclidean length. -/
noncomputable def vlen (a : Vec3) : ℝ := Real.sqrt (a.dotProduct a)

/-- Embedding of `Vec3f::normalize`, modelled from the spec: divide by the length when
the vector is nonzero. -/
noncomputable def normalize (a : Vec3) : Vec3 :=
  if a.dotProduct a = 0 then a else a / vlen a


end Vec3

/-- Embedding of `Vec2f`: a pair of reals (barycentric/texture coordinates). -/
def Vec2 : Type := ℝ × ℝ

/-- Embedding of `Material` from the loader headers (not under `src/`).  Modelled from
the spec: flags `{self_luminous, diffuse, specular, transparent}` (not
exclusive), emissive intensity `ka`, diffuse albedo `kd`, specular
coefficient `ks`, shininess exponent (`ns.exponent`), transmission mix
ratio (`tr.ratio`) and refractive index (`ni.optical_density`). -/
structure Material where
  self_luminous : Bool
  diffuse : Bool
  specular : Bool
  transparent : Bool
  ka : Vec3
  kd : Vec3
  ks : Vec3
  nsExponent : ℝ
  trRatio : ℝ
  niOpticalDensity : ℝ

/-- Output of `Object::getSurfaceProperties` (not under `src/`).  Modelled
from the spec: resolved surface normal, texture coordinates, surface base
color and the hit object's material. -/
structure SurfaceProps where
  hitNormal : Vec3
  texCoord : Vec2
  color : Vec3
  material : Material

/-- Embedding of `Object` (not under `src/`).  Modelled from the spec interface
`Object.getSurfaceProperties(point, direction, objectIndex, uv) ->
(normal, texCoord, color, material)`. -/
structure Obj where
  getSurfaceProperties : Vec3 → Vec3 → ℤ → Vec2 → SurfaceProps

/-- A reported intersection: hit distance `tnear`, object index, `uv`
coordinates and the hit object. -/
structure Hit where
  t : ℝ
  index : ℤ
  uv : Vec2
  obj : Obj

/-- Embedding of `Scene` (not under `src/`).  Modelled from the spec interface
`Scene.intersect(origin, direction) -> (hit, distance, objectIndex, uv)`;
`none` means no intersection. -/
structure Scene where
  intersect : Vec3 → Vec3 → Option Hit

/-- The camera-to-world 4x4 transform, modelled from the spec: a linear
part applied to directions (`multDirMatrix`) and a full point transform
(`multVecMatrix`, linear part plus translation). -/
structure Mat44 where
  linear : Vec3 → Vec3
  translation : Vec3

noncomputable def Mat44.multDirMatrix (m : Mat44) (v : Vec3) : Vec3 := m.linear v

noncomputable def Mat44.multVecMatrix (m : Mat44) (v : Vec3) : Vec3 :=
  m.linear v + m.translation

/-- Embedding of `Options` (not under `src/`).  Modelled from the spec: image size,
field of view, camera-to-world transform, recursion depth limit,
background color, shadow-acne bias. -/
structure Options where
  width : ℕ
  height : ℕ
  fov : ℝ
  cameraToWorld : Mat44
  maxDepth : ℤ
  backgroundColor : Vec3
  bias : ℝ

/-- Embedding of `createCoordinateSystem` (PathTracing.h lines 21-28): build the two
tangent vectors from a normal, returned as the pair `(Nt, Nb)`. -/
noncomputable def createCoordinateSystem (N : Vec3) : Vec3 × Vec3 :=
  let Nt : Vec3 :=
    if |N.x| > |N.y| then
      Vec3.mk N.z 0 (-N.x) / Real.sqrt (N.x * N.x + N.z * N.z)
    else
      Vec3.mk 0 (-N.z) N.y / Real.sqrt (N.y * N.y + N.z * N.z)
  (Nt, N.crossProduct Nt)

/-- Embedding of `uniformSampleHemisphere` (PathTracing.h lines 31-40). -/
noncomputable def uniformSampleHemisphere (r1 r2 : ℝ) : Vec3 :=
  let sinTheta := Real.sqrt (1 - r1 * r1)
  let phi := 2 * Real.pi * r2
  let x := sinTheta * Real.cos phi
  let z := sinTheta * Real.sin phi
  ⟨x, r1, z⟩

/-- Embedding of `reflect` (PathTracing.h lines 42-45). -/
noncomputable def reflect (I N : Vec3) : Vec3 := I - 2 * I.dotProduct N * N

/-- The branch setup of `refract` (PathTracing.h lines 49-53): clamp
`cosi`, then either keep the indices (ray from outside) or swap them and
flip the normal; returns `(cosi, eta, n)` with `eta = etai / etat`. -/
noncomputable def refractSetup (I N : Vec3) (ior : ℝ) : ℝ × ℝ × Vec3 :=
  let cosi := min (max (-1 : ℝ) (I.dotProduct N)) 1
  if cosi < 0 then (-cosi, 1 / ior, N) else (cosi, ior / 1, -N)

/-- The discriminant `k = 1 - eta * eta * (1 - cosi * cosi)` of `refract`
(PathTracing.h line 55). -/
noncomputable def refractK (I N : Vec3) (ior : ℝ) : ℝ :=
  let s := refractSetup I N ior
  1 - s.2.1 * s.2.1 * (1 - s.1 * s.1)

/-- Embedding of `refract` (PathTracing.h lines 47-57). -/
noncomputable def refract (I N : Vec3) (ior : ℝ) : Vec3 :=
  let s := refractSetup I N ior
  if refractK I N ior < 0 then 0
  else s.2.1 * I + (s.2.1 * s.1 - Real.sqrt (refractK I N ior)) * s.2.2

/-- Result of one `castRay` invocation: the returned color, the position
of the random-stream cursor after the call, and instrumentation counting
the intersection queries and the recursive `castRay` invocations the call
performed (including nested ones). -/
structure RayResult where
  color : Vec3
  pos : ℕ
  queries : ℕ
  calls : ℕ

/-- The local-to-world change of basis of the diffuse branch
(PathTracing.h lines 104-107). -/
noncomputable def sampleWorld (sample Nb hitNormal Nt : Vec3) : Vec3 :=
  ⟨sample.x * Nb.x + sample.y * hitNormal.x + sample.z * Nt.x,
   sample.x * Nb.y + sample.y * hitNormal.y + sample.z * Nt.y,
   sample.x * Nb.z + sample.y * hitNormal.z + sample.z * Nt.z⟩

/-- Embedding of `float pdf = 1 / (2 * M_PI)` (PathTracing.h line 99). -/
noncomputable def pdfVal : ℝ := 1 / (2 * Real.pi)

/-- The 128-iteration sampling loop of the diffuse branch (PathTracing.h
lines 100-110).  `recur` is the recursive `castRay` call at `depth + 1`;
two random numbers are drawn per iteration; `acc` accumulates
`r1 * castRay(...) / pdf`; `q`/`c` accumulate the instrumentation of the
nested calls (`c` counts one per direct recursive call plus the nested
ones). -/
noncomputable def diffuseLoop (rng : ℕ → ℝ)
    (recur : Vec3 → Vec3 → ℕ → Option RayResult)
    (hitPoint hitNormal Nt Nb : Vec3) :
    ℕ → Vec3 → ℕ → ℕ → ℕ → Option RayResult
  | 0, acc, pos, q, c => some ⟨acc, pos, q, c⟩
  | n + 1, acc, pos, q, c =>
    let r1 := rng pos
    let r2 := rng (pos + 1)
    let sample := uniformSampleHemisphere r1 r2
    let sw := sampleWorld sample Nb hitNormal Nt
    match recur hitPoint sw (pos + 2) with
    | none => none
    | some res =>
      diffuseLoop rng recur hitPoint hitNormal Nt Nb n
        (acc + r1 * res.color / pdfVal) res.pos (q + res.queries) (c + 1 + res.calls)

/-- One level of `castRay` (PathTracing.h lines 59-145) with the
recursive call abstracted as `recur` (always invoked at `depth + 1`):
depth guard, intersection query, emissive short-circuit, then the
additive diffuse / specular / transparent contributions. -/
noncomputable def castRayStep (rng : ℕ → ℝ) (scene : Scene) (options : Options)
    (recur : Vec3 → Vec3 → ℤ → ℕ → Option RayResult)
    (orig dir : Vec3) (depth : ℤ) (pos : ℕ) : Option RayResult :=
  if depth > options.maxDepth then
    some ⟨options.backgroundColor, pos, 0, 0⟩
  else
    match scene.intersect orig dir with
    | none => some ⟨options.backgroundColor, pos, 1, 0⟩
    | some hit =>
      let hitPoint := orig + dir * hit.t
      let props := hit.obj.getSurfaceProperties hitPoint dir hit.index hit.uv
      let m := props.material
      if m.self_luminous then
        some ⟨m.ka * props.color, pos, 1, 0⟩
      else
        let step1 : Option RayResult :=
          if m.diffuse then
            let NtNb := createCoordinateSystem props.hitNormal
            (diffuseLoop rng
                (fun o d p => recur o d (depth + 1) p)
                hitPoint props.hitNormal NtNb.1 NtNb.2 128 0 pos 0 0).map
              fun res =>
                ⟨options.backgroundColor + res.color / (128 : ℝ) * m.kd,
                 res.pos, 1 + res.queries, res.calls⟩
          else some ⟨options.backgroundColor, pos, 1, 0⟩
        let step2 : Option RayResult :=
          step1.bind fun s1 =>
            if m.specular then
              let refl := (reflect dir props.hitNormal).normalize
              (recur hitPoint refl (depth + 1) s1.pos).map
                fun li =>
                  let cosineAlpha := refl.dotProduct (-dir)
                  ⟨s1.color + li.color * m.ks * Real.rpow cosineAlpha m.nsExponent,
                   li.pos, s1.queries + li.queries, s1.calls + 1 + li.calls⟩
            else some s1
        step2.bind fun s2 =>
          if m.transparent then
            let kr := m.trRatio
            let outside := dir.dotProduct props.hitNormal < 0
            let biasVec := options.bias * props.hitNormal
            let refractionDirection :=
              (refract dir props.hitNormal m.niOpticalDensity).normalize
            (recur hitPoint refractionDirection (depth + 1) s2.pos).bind
              fun rc =>
                let reflectionDirection := (reflect dir props.hitNormal).normalize
                (recur hitPoint reflectionDirection (depth + 1) rc.pos).map
                  fun rl =>
                    ⟨s2.color + rl.color * kr + rc.color * ((1 : ℝ) - kr),
                     rl.pos, s2.queries + rc.queries + rl.queries,
                     s2.calls + 2 + rc.calls + rl.calls⟩
          else some s2

/-- Fuel-indexed embedding of `castRay` (PathTracing.h lines 59-145).
`none` means the fuel ran out before the `depth > options.maxDepth` guard
fired; any actual run of the C++ function is recovered with enough fuel
(see the termination theorem).  The cursor `pos` plays the role of the
global generator state. -/
noncomputable def castRayF (rng : ℕ → ℝ) (scene : Scene) (options : Options) :
    ℕ → Vec3 → Vec3 → ℤ → ℕ → Option RayResult
  | 0, _, _, _, _ => none
  | fuel + 1, orig, dir, depth, pos =>
    castRayStep rng scene options (castRayF rng scene options fuel)
      orig dir depth pos

/-- Fuel sufficient for a `castRay` call at recursion depth `depth`: the
depth guard fires at `depth = maxDepth + 1`, so the longest call chain has
`maxDepth + 2 - depth` frames (at least one frame is always consumed). -/
def castRayBound (options : Options) (depth : ℤ) : ℕ :=
  max 1 (options.maxDepth + 2 - depth).toNat

/-- The embedding of `castRay` itself: `castRayF` run with sufficient
fuel. -/
noncomputable def castRay (rng : ℕ → ℝ) (scene : Scene) (options : Options)
    (orig dir : Vec3) (depth : ℤ) (pos : ℕ) : Option RayResult :=
  castRayF rng scene options (castRayBound options depth) orig dir depth pos

/-- Total version of `castRay` (the default is never reached: `castRay`
with its fuel bound always returns `some`). -/
noncomputable def castRayT (rng : ℕ → ℝ) (scene : Scene) (options : Options)
    (orig dir : Vec3) (depth : ℤ) (pos : ℕ) : RayResult :=
  (castRay rng scene options orig dir depth pos).getD ⟨0, pos, 0, 0⟩

/-- The camera position: `options.cameraToWorld.multVecMatrix(Vec3f(0), orig)`
(PathTracing.h lines 154-155). -/
noncomputable def cameraOrigin (options : Options) : Vec3 :=
  options.cameraToWorld.multVecMatrix 0

/-- The primary ray direction of pixel `(i, j)` (PathTracing.h lines
152-163): normalized device coordinates, fov scale and aspect ratio, then
the camera-to-world linear transform and normalization. -/
noncomputable def primaryDir (options : Options) (i j : ℕ) : Vec3 :=
  let scale := Real.tan (options.fov * 0.5 * Real.pi / 180)
  let imageAspectRatio := (options.width : ℝ) / (options.height : ℝ)
  let x := (2 * ((i : ℝ) + 0.5) / (options.width : ℝ) - 1) * imageAspectRatio * scale
  let y := (1 - 2 * ((j : ℝ) + 0.5) / (options.height : ℝ)) * scale
  (options.cameraToWorld.multDirMatrix ⟨x, y, -1⟩).normalize

/-- The inner pixel loop of `render` (PathTracing.h lines 157-166) over
row `j`, with `n` pixels left in the row (the current column is
`width - n`); returns the colors written in order together with the final
random-stream cursor. -/
noncomputable def renderRow (rng : ℕ → ℝ) (scene : Scene) (options : Options)
    (j : ℕ) : ℕ → ℕ → List Vec3 × ℕ
  | 0, pos => ([], pos)
  | n + 1, pos =>
    let i := options.width - (n + 1)
    let r := castRayT rng scene options (cameraOrigin options)
      (primaryDir options i j) 0 pos
    let rest := renderRow rng scene options j n r.pos
    (r.color :: rest.1, rest.2)

/-- The outer row loop of `render` (PathTracing.h line 156), with `n` rows
left (the current row is `height - n`). -/
noncomputable def renderRows (rng : ℕ → ℝ) (scene : Scene) (options : Options) :
    ℕ → ℕ → List Vec3 × ℕ
  | 0, pos => ([], pos)
  | n + 1, pos =>
    let j := options.height - (n + 1)
    let row := renderRow rng scene options j options.width pos
    let rest := renderRows rng scene options n row.2
    (row.1 ++ rest.1, rest.2)

/-- Embedding of `render` (PathTracing.h lines 147-168): the flat sequence of colors
written through the `pixels` pointer, in write order. -/
noncomputable def renderList (rng : ℕ → ℝ) (scene : Scene) (options : Options) :
    List Vec3 :=
  (renderRows rng scene options options.height 0).1

/-- Specification-side description of the random cursor before the `k`-th
pixel (row-major index): each pixel advances the cursor by whatever its
depth-0 `castRay` call consumed. -/
noncomputable def renderPos (rng : ℕ → ℝ) (scene : Scene) (options : Options) :
    ℕ → ℕ
  | 0 => 0
  | k + 1 =>
    (castRayT rng scene options (cameraOrigin options)
      (primaryDir options (k % options.width) (k / options.width)) 0
      (renderPos rng scene options k)).pos

/-- Specification-side flat pixel sequence: process `cnt` pixels starting
at row-major index `start` with cursor `pos`. -/
noncomputable def pixSeq (rng : ℕ → ℝ) (scene : Scene) (options : Options) :
    ℕ → ℕ → ℕ → List Vec3 × ℕ
  | _, pos, 0 => ([], pos)
  | start, pos, cnt + 1 =>
    let r := castRayT rng scene options (cameraOrigin options)
      (primaryDir options (start % options.width) (start / options.width)) 0 pos
    let rest := pixSeq rng scene options (start + 1) r.pos cnt
    (r.color :: rest.1, rest.2)

/-- A concrete scene that always reports a hit on a purely diffuse white
material (used by witnesses and the C5 counterexample). -/
noncomputable def diffuseMat : Material :=
  ⟨false, true, false, false, ⟨0, 0, 0⟩, ⟨1, 1, 1⟩, ⟨0, 0, 0⟩, 1, 0, 1⟩

noncomputable def diffuseObj : Obj :=
  ⟨fun _ _ _ _ => ⟨⟨0, 1, 0⟩, ((0 : ℝ), (0 : ℝ)), ⟨1, 1, 1⟩, diffuseMat⟩⟩

noncomputable def diffuseScene : Scene :=
  ⟨fun _ _ => some ⟨1, 0, ((0 : ℝ), (0 : ℝ)), diffuseObj⟩⟩

/-- The empty scene: no ray intersects anything. -/
def emptyScene : Scene := ⟨fun _ _ => none⟩

/-- A trivial random stream. -/
def rngZero : ℕ → ℝ := fun _ => 0

/-- Concrete render options: 2x1 image, 90 degree fov, identity camera,
`maxDepth = 0`, white background, zero bias. -/
noncomputable def optA : Options :=
  ⟨2, 1, 90, ⟨fun v => v, 0⟩, 0, ⟨1, 1, 1⟩, 0⟩

/-- A concrete emissive material (other flags also set, to exercise
"irrespective of the other flags"). -/
noncomputable def emissiveMat : Material :=
  ⟨true, true, true, true, ⟨2, 3, 4⟩, ⟨1, 1, 1⟩, ⟨1, 1, 1⟩, 1, 0, 1⟩

noncomputable def emissiveObj : Obj :=
  ⟨fun _ _ _ _ => ⟨⟨0, 1, 0⟩, ((0 : ℝ), (0 : ℝ)), ⟨1, 1, 1⟩, emissiveMat⟩⟩

noncomputable def emissiveScene : Scene :=
  ⟨fun _ _ => some ⟨1, 0, ((0 : ℝ), (0 : ℝ)), emissiveObj⟩⟩

/-- A random stream that yields `0` for the first 256 draws (consumed by
pixel 0) and `1/2` afterwards (consumed by pixel 1). -/
noncomputable def cexRng : ℕ → ℝ := fun k => if k < 256 then 0 else 1 / 2

@[simp] theorem Vec3.add_x (a b : Vec3) : (a + b).x = a.x + b.x := rfl
@[simp] theorem Vec3.add_y (a b : Vec3) : (a + b).y = a.y + b.y := rfl
@[simp] theorem Vec3.add_z (a b : Vec3) : (a + b).z = a.z + b.z := rfl
@[simp] theorem Vec3.sub_x (a b : Vec3) : (a - b).x = a.x - b.x := rfl
@[simp] theorem Vec3.sub_y (a b : Vec3) : (a - b).y = a.y - b.y := rfl
@[simp] theorem Vec3.sub_z (a b : Vec3) : (a - b).z = a.z - b.z := rfl
@[simp] theorem Vec3.neg_x (a : Vec3) : (-a).x = -a.x := rfl
@[simp] theorem Vec3.neg_y (a : Vec3) : (-a).y = -a.y := rfl
@[simp] theorem Vec3.neg_z (a : Vec3) : (-a).z = -a.z := rfl
@[simp] theorem Vec3.zero_x : (0 : Vec3).x = 0 := rfl
@[simp] theorem Vec3.zero_y : (0 : Vec3).y = 0 := rfl
@[simp] theorem Vec3.zero_z : (0 : Vec3).z = 0 := rfl
@[simp] theorem Vec3.smul_x (s : ℝ) (v : Vec3) : (s * v).x = s * v.x := rfl
@[simp] theorem Vec3.smul_y (s : ℝ) (v : Vec3) : (s * v).y = s * v.y := rfl
@[simp] theorem Vec3.smul_z (s : ℝ) (v : Vec3) : (s * v).z = s * v.z := rfl
@[simp] theorem Vec3.muls_x (v : Vec3) (s : ℝ) : (v * s).x = v.x * s := rfl
@[simp] theorem Vec3.muls_y (v : Vec3) (s : ℝ) : (v * s).y = v.y * s := rfl
@[simp] theorem Vec3.muls_z (v : Vec3) (s : ℝ) : (v * s).z = v.z * s := rfl
@[simp] theorem Vec3.mulv_x (a b : Vec3) : (a * b).x = a.x * b.x := rfl
@[simp] theorem Vec3.mulv_y (a b : Vec3) : (a * b).y = a.y * b.y := rfl
@[simp] theorem Vec3.mulv_z (a b : Vec3) : (a * b).z = a.z * b.z := rfl
@[simp] theorem Vec3.divs_x (v : Vec3) (s : ℝ) : (v / s).x = v.x / s := rfl
@[simp] theorem Vec3.divs_y (v : Vec3) (s : ℝ) : (v / s).y = v.y / s := rfl
@[simp] theorem Vec3.divs_z (v : Vec3) (s : ℝ) : (v / s).z = v.z / s := rfl

/-! ## Basic vector facts -/

theorem Vec3.dot_self_nonneg (v : Vec3) : 0 ≤ v.dotProduct v := by
  simp only [Vec3.dotProduct]
  nlinarith [mul_self_nonneg v.x, mul_self_nonneg v.y, mul_self_nonneg v.z]

theorem Vec3.vlen_eq_one (v : Vec3) (h : v.dotProduct v = 1) : v.vlen = 1 := by
  rw [Vec3.vlen, h, Real.sqrt_one]

theorem Vec3.dot_self_of_vlen_one (v : Vec3) (h : v.vlen = 1) :
    v.dotProduct v = 1 := by
  rw [Vec3.vlen] at h
  exact Real.sqrt_eq_one.mp h

theorem Vec3.dot_cross_left (v w : Vec3) : v.dotProduct (v.crossProduct w) = 0 := by
  simp only [Vec3.dotProduct, Vec3.crossProduct]
  ring

theorem Vec3.dot_cross_right (v w : Vec3) : w.dotProduct (v.crossProduct w) = 0 := by
  simp only [Vec3.dotProduct, Vec3.crossProduct]
  ring

theorem Vec3.cross_dot_self (v w : Vec3) :
    (v.crossProduct w).dotProduct (v.crossProduct w) =
      v.dotProduct v * w.dotProduct w - (v.dotProduct w) ^ 2 := by
  simp only [Vec3.dotProduct, Vec3.crossProduct]
  ring

/-! ## C9: the reflection law -/

/-- C9.  For every incident direction `I` and unit-length normal `N`, the
reflected vector `R = reflect(I, N) = I - 2(I·N)N` satisfies
`R·N = -(I·N)` and `|R| = |I|`. -/
theorem reflect_law (I N : Vec3) (hN : N.vlen = 1) :
    (reflect I N).dotProduct N = -(I.dotProduct N) ∧
      (reflect I N).vlen = I.vlen := by
  have hNN : N.x * N.x + N.y * N.y + N.z * N.z = 1 := N.dot_self_of_vlen_one hN
  constructor
  · simp only [reflect, Vec3.dotProduct, Vec3.sub_x, Vec3.sub_y, Vec3.sub_z,
      Vec3.smul_x, Vec3.smul_y, Vec3.smul_z]
    linear_combination (-2 * (I.x * N.x + I.y * N.y + I.z * N.z)) * hNN
  · have h : (reflect I N).dotProduct (reflect I N) = I.dotProduct I := by
      simp only [reflect, Vec3.dotProduct, Vec3.sub_x, Vec3.sub_y, Vec3.sub_z,
        Vec3.smul_x, Vec3.smul_y, Vec3.smul_z]
      linear_combination (4 * (I.x * N.x + I.y * N.y + I.z * N.z) ^ 2) * hNN
    rw [Vec3.vlen, Vec3.vlen, h]

/-- Witness for C9 at `I = (1,-1,0)`, `N = (0,1,0)`. -/
theorem reflect_law_witness :
    Vec3.vlen ⟨0, 1, 0⟩ = 1 ∧
      ((reflect ⟨1, -1, 0⟩ ⟨0, 1, 0⟩).dotProduct ⟨0, 1, 0⟩ =
          -(Vec3.dotProduct ⟨1, -1, 0⟩ ⟨0, 1, 0⟩) ∧
        (reflect ⟨1, -1, 0⟩ ⟨0, 1, 0⟩).vlen = Vec3.vlen ⟨1, -1, 0⟩) := by
  have h : Vec3.vlen ⟨0, 1, 0⟩ = 1 := by
    simp [Vec3.vlen, Vec3.dotProduct]
  exact ⟨h, reflect_law ⟨1, -1, 0⟩ ⟨0, 1, 0⟩ h⟩

/-! ## C7: hemisphere samples (corrected: the local-Y component is
non-negative, not always positive; it is `0` at `r1 = 0`) -/

/-- C7 counterexample: at `r1 = 0, r2 = 0` (both in `[0,1)`) the sampled
vector's local-Y component is `0`, which is not positive, refuting the
claim that the local-Y component is always positive. -/
theorem uniformSampleHemisphere_y_not_pos :
    (0 : ℝ) ≤ 0 ∧ (0 : ℝ) < 1 ∧
      ¬ (0 < (uniformSampleHemisphere 0 0).y) := by
  refine ⟨le_refl 0, by norm_num, ?_⟩
  simp [uniformSampleHemisphere]

/-- C7 amended.  For every `r1, r2 ∈ [0,1)`,
`uniformSampleHemisphere(r1, r2)` returns a vector of unit length whose
local-Y component equals `r1` and is non-negative (it is `0` when
`r1 = 0`). -/
theorem uniformSampleHemisphere_unit_nonneg (r1 r2 : ℝ)
    (h0 : 0 ≤ r1) (h1 : r1 < 1) (h2 : 0 ≤ r2) (h3 : r2 < 1) :
    (uniformSampleHemisphere r1 r2).vlen = 1 ∧
      (uniformSampleHemisphere r1 r2).y = r1 ∧
      0 ≤ (uniformSampleHemisphere r1 r2).y := by
  refine ⟨?_, rfl, h0⟩
  apply Vec3.vlen_eq_one
  simp only [uniformSampleHemisphere, Vec3.dotProduct]
  have hs : Real.sqrt (1 - r1 * r1) * Real.sqrt (1 - r1 * r1) = 1 - r1 * r1 :=
    Real.mul_self_sqrt (by nlinarith)
  have hc := Real.sin_sq_add_cos_sq (2 * Real.pi * r2)
  nlinarith [hs, hc]

/-- Witness for C7 (amended) at `r1 = 0, r2 = 0`. -/
theorem uniformSampleHemisphere_unit_nonneg_witness :
    ((0 : ℝ) ≤ 0 ∧ (0 : ℝ) < 1) ∧
      ((uniformSampleHemisphere 0 0).vlen = 1 ∧
        (uniformSampleHemisphere 0 0).y = 0 ∧
        0 ≤ (uniformSampleHemisphere 0 0).y) :=
  ⟨⟨le_refl 0, by norm_num⟩,
    uniformSampleHemisphere_unit_nonneg 0 0 (le_refl 0) (by norm_num)
      (le_refl 0) (by norm_num)⟩

/-! ## C8: refraction boundary cases -/

/-- C8.  `refract(I, N, ior)` returns the zero vector whenever the
discriminant `k = 1 - eta^2 (1 - cosi^2)` it computes is negative (total
internal reflection), and at `ior = 1` it returns the incident direction
`I` unchanged, for every incident direction `I` and unit normal `N`. -/
theorem refract_tir_and_identity (I N : Vec3) (hN : N.vlen = 1) :
    (∀ ior : ℝ, refractK I N ior < 0 → refract I N ior = 0) ∧
      refract I N 1 = I := by
  constructor
  · intro ior hk
    simp [refract, if_pos hk]
  · by_cases hc : min (max (-1 : ℝ) (I.dotProduct N)) 1 < 0
    · have hsetup : refractSetup I N 1 =
          (-(min (max (-1 : ℝ) (I.dotProduct N)) 1), 1 / 1, N) := by
        simp only [refractSetup]
        rw [if_pos hc]
      set c := min (max (-1 : ℝ) (I.dotProduct N)) 1 with hcdef
      have hk : refractK I N 1 = (-c) * (-c) := by
        rw [refractK, hsetup]
        ring
      have hcpos : 0 ≤ -c := by linarith
      have hknn : ¬ refractK I N 1 < 0 := by rw [hk]; nlinarith
      have hsq : Real.sqrt (refractK I N 1) = -c := by
        rw [hk]; exact Real.sqrt_mul_self hcpos
      rw [refract, hsetup]
      simp only [if_neg hknn, hsq]
      ext <;> simp <;> ring
    · have hsetup : refractSetup I N 1 =
          (min (max (-1 : ℝ) (I.dotProduct N)) 1, 1 / 1, -N) := by
        simp only [refractSetup]
        rw [if_neg hc]
      set c := min (max (-1 : ℝ) (I.dotProduct N)) 1 with hcdef
      have hk : refractK I N 1 = c * c := by
        rw [refractK, hsetup]
        ring
      have hcpos : 0 ≤ c := le_of_not_lt hc
      have hknn : ¬ refractK I N 1 < 0 := by rw [hk]; nlinarith
      have hsq : Real.sqrt (refractK I N 1) = c := by
        rw [hk]; exact Real.sqrt_mul_self hcpos
      rw [refract, hsetup]
      simp only [if_neg hknn, hsq]
      ext <;> simp <;> ring

/-- Witness for C8 at `N = (0,1,0)`: `I = (1, 1/2, 0)` with `ior = 2`
yields discriminant `k = -2 < 0` and the zero vector; and `ior = 1`
returns `I` unchanged. -/
theorem refract_tir_and_identity_witness :
    Vec3.vlen ⟨0, 1, 0⟩ = 1 ∧
      refractK ⟨1, 1 / 2, 0⟩ ⟨0, 1, 0⟩ 2 < 0 ∧
      refract ⟨1, 1 / 2, 0⟩ ⟨0, 1, 0⟩ 2 = 0 ∧
      refract ⟨1, 1 / 2, 0⟩ ⟨0, 1, 0⟩ 1 = ⟨1, 1 / 2, 0⟩ := by
  have hN : Vec3.vlen ⟨0, 1, 0⟩ = 1 := by
    simp [Vec3.vlen, Vec3.dotProduct]
  have hdot : Vec3.dotProduct ⟨1, 1 / 2, 0⟩ ⟨0, 1, 0⟩ = 1 / 2 := by
    simp [Vec3.dotProduct]
  have hclamp : min (max (-1 : ℝ) (1 / 2)) 1 = 1 / 2 := by
    rw [max_eq_right (by norm_num), min_eq_left (by norm_num)]
  have hk : refractK ⟨1, 1 / 2, 0⟩ ⟨0, 1, 0⟩ 2 < 0 := by
    rw [refractK, refractSetup, hdot, hclamp]
    norm_num
  exact ⟨hN, hk,
    (refract_tir_and_identity ⟨1, 1 / 2, 0⟩ ⟨0, 1, 0⟩ hN).1 2 hk,
    (refract_tir_and_identity ⟨1, 1 / 2, 0⟩ ⟨0, 1, 0⟩ hN).2⟩

/-! ## C6: basis orthonormality -/

/-- The two candidate tangent vectors of `createCoordinateSystem` have the
shape `v / Real.sqrt s` with `v.dotProduct v = s` and `N.dotProduct v = 0`;
this helper settles each branch. -/
theorem tangent_branch_facts (N v : Vec3) (s : ℝ) (hs : 0 < s)
    (hvv : v.dotProduct v = s) (hNv : N.dotProduct v = 0) :
    (v / Real.sqrt s).dotProduct (v / Real.sqrt s) = 1 ∧
      N.dotProduct (v / Real.sqrt s) = 0 := by
  have hd : Real.sqrt s * Real.sqrt s = s := Real.mul_self_sqrt hs.le
  have hd0 : Real.sqrt s ≠ 0 := ne_of_gt (Real.sqrt_pos.mpr hs)
  constructor
  · simp only [Vec3.dotProduct, Vec3.divs_x, Vec3.divs_y, Vec3.divs_z]
    field_simp
    rw [Vec3.dotProduct] at hvv
    nlinarith [hvv, hd]
  · simp only [Vec3.dotProduct, Vec3.divs_x, Vec3.divs_y, Vec3.divs_z]
    rw [Vec3.dotProduct] at hNv
    field_simp
    linear_combination hNv

/-- C6.  For every unit-length normal `N`, `createCoordinateSystem`
returns `(Nt, Nb)` such that `Nt`, `Nb` and `N` are mutually orthogonal
and each of unit length, with `Nb = N x Nt`, and the branch on
`|N.x| > |N.y|` guarantees the normalizing denominator is nonzero. -/
theorem createCoordinateSystem_orthonormal (N : Vec3) (hN : N.vlen = 1) :
    (createCoordinateSystem N).1.vlen = 1 ∧
      (createCoordinateSystem N).2.vlen = 1 ∧
      N.dotProduct (createCoordinateSystem N).1 = 0 ∧
      N.dotProduct (createCoordinateSystem N).2 = 0 ∧
      (createCoordinateSystem N).1.dotProduct (createCoordinateSystem N).2 = 0 ∧
      (createCoordinateSystem N).2 = N.crossProduct (createCoordinateSystem N).1 ∧
      (if |N.x| > |N.y| then Real.sqrt (N.x * N.x + N.z * N.z)
        else Real.sqrt (N.y * N.y + N.z * N.z)) ≠ 0 := by
  have hNN : N.dotProduct N = 1 := N.dot_self_of_vlen_one hN
  have hcc : N.x * N.x + N.y * N.y + N.z * N.z = 1 := hNN
  have key : ∀ Nt : Vec3, Nt.dotProduct Nt = 1 → N.dotProduct Nt = 0 →
      Nt.vlen = 1 ∧ (N.crossProduct Nt).vlen = 1 ∧ N.dotProduct Nt = 0 ∧
        N.dotProduct (N.crossProduct Nt) = 0 ∧
        Nt.dotProduct (N.crossProduct Nt) = 0 := by
    intro Nt h1 h2
    refine ⟨Nt.vlen_eq_one h1, ?_, h2, N.dot_cross_left Nt, Vec3.dot_cross_right N Nt⟩
    apply Vec3.vlen_eq_one
    rw [Vec3.cross_dot_self, hNN, h1, h2]
    norm_num
  by_cases hb : |N.x| > |N.y|
  · have hx : 0 < N.x * N.x := by
      have h2 : 0 < |N.x| := lt_of_le_of_lt (abs_nonneg N.y) hb
      have h3 : N.x ≠ 0 := abs_pos.mp h2
      exact mul_self_pos.mpr h3
    have hs : 0 < N.x * N.x + N.z * N.z := by nlinarith [mul_self_nonneg N.z]
    have hpair := tangent_branch_facts N (Vec3.mk N.z 0 (-N.x))
      (N.x * N.x + N.z * N.z) hs
      (by simp only [Vec3.dotProduct]; ring)
      (by simp only [Vec3.dotProduct]; ring)
    have hcs : createCoordinateSystem N =
        (Vec3.mk N.z 0 (-N.x) / Real.sqrt (N.x * N.x + N.z * N.z),
          N.crossProduct (Vec3.mk N.z 0 (-N.x) / Real.sqrt (N.x * N.x + N.z * N.z))) := by
      simp only [createCoordinateSystem]
      rw [if_pos hb]
    obtain ⟨hk1, hk2, hk3, hk4, hk5⟩ := key _ hpair.1 hpair.2
    rw [hcs]
    refine ⟨hk1, hk2, hk3, hk4, hk5, rfl, ?_⟩
    rw [if_pos hb]
    exact ne_of_gt (Real.sqrt_pos.mpr hs)
  · have hxy : N.x * N.x ≤ N.y * N.y := by
      have h1 : |N.x| ≤ |N.y| := not_lt.mp hb
      nlinarith [abs_nonneg N.x, abs_nonneg N.y, sq_abs N.x, sq_abs N.y,
        mul_self_le_mul_self (abs_nonneg N.x) h1, sq_nonneg (|N.x| - |N.y|)]
    have hs : 0 < N.y * N.y + N.z * N.z := by
      nlinarith [mul_self_nonneg N.z, mul_self_nonneg N.x]
    have hpair := tangent_branch_facts N (Vec3.mk 0 (-N.z) N.y)
      (N.y * N.y + N.z * N.z) hs
      (by simp only [Vec3.dotProduct]; ring)
      (by simp only [Vec3.dotProduct]; ring)
    have hcs : createCoordinateSystem N =
        (Vec3.mk 0 (-N.z) N.y / Real.sqrt (N.y * N.y + N.z * N.z),
          N.crossProduct (Vec3.mk 0 (-N.z) N.y / Real.sqrt (N.y * N.y + N.z * N.z))) := by
      simp only [createCoordinateSystem]
      rw [if_neg hb]
    obtain ⟨hk1, hk2, hk3, hk4, hk5⟩ := key _ hpair.1 hpair.2
    rw [hcs]
    refine ⟨hk1, hk2, hk3, hk4, hk5, rfl, ?_⟩
    rw [if_neg hb]
    exact ne_of_gt (Real.sqrt_pos.mpr hs)

/-- Witness for C6 at the axis-aligned normal `N = (1,0,0)`. -/
theorem createCoordinateSystem_orthonormal_witness :
    Vec3.vlen ⟨1, 0, 0⟩ = 1 ∧
      ((createCoordinateSystem ⟨1, 0, 0⟩).1.vlen = 1 ∧
        (createCoordinateSystem ⟨1, 0, 0⟩).2.vlen = 1 ∧
        Vec3.dotProduct ⟨1, 0, 0⟩ (createCoordinateSystem ⟨1, 0, 0⟩).1 = 0 ∧
        Vec3.dotProduct ⟨1, 0, 0⟩ (createCoordinateSystem ⟨1, 0, 0⟩).2 = 0 ∧
        (createCoordinateSystem ⟨1, 0, 0⟩).1.dotProduct
          (createCoordinateSystem ⟨1, 0, 0⟩).2 = 0 ∧
        (createCoordinateSystem ⟨1, 0, 0⟩).2 =
          Vec3.crossProduct ⟨1, 0, 0⟩ (createCoordinateSystem ⟨1, 0, 0⟩).1 ∧
        (if |(1 : ℝ)| > |(0 : ℝ)| then Real.sqrt (1 * 1 + 0 * 0)
          else Real.sqrt (0 * 0 + 0 * 0)) ≠ 0) := by
  have h : Vec3.vlen ⟨1, 0, 0⟩ = 1 := by
    simp [Vec3.vlen, Vec3.dotProduct]
  exact ⟨h, createCoordinateSystem_orthonormal ⟨1, 0, 0⟩ h⟩

/-! ## Unfolding `castRay` one step -/

theorem castRayBound_pos (options : Options) (depth : ℤ) :
    0 < castRayBound options depth :=
  lt_of_lt_of_le Nat.zero_lt_one (le_max_left _ _)

theorem castRayBound_succ (options : Options) (depth : ℤ) :
    castRayBound options depth = (castRayBound options depth - 1) + 1 :=
  (Nat.succ_pred_eq_of_pos (castRayBound_pos options depth)).symm

/-! ## C1: the depth guard -/

/-- C1.  For every ray, scene and options, `castRay` at
`depth > options.maxDepth` returns exactly `options.backgroundColor`,
performs no intersection query and makes no recursive call, regardless of
scene content (the cursor is also untouched). -/
theorem castRay_depth_limit (rng : ℕ → ℝ) (scene : Scene) (options : Options)
    (orig dir : Vec3) (depth : ℤ) (pos : ℕ) (h : depth > options.maxDepth) :
    castRay rng scene options orig dir depth pos =
      some ⟨options.backgroundColor, pos, 0, 0⟩ := by
  rw [castRay, castRayBound_succ]
  simp only [castRayF, castRayStep]
  rw [if_pos h]

/-- Witness for C1: at `depth = 1 > maxDepth = 0` the call returns the
background color with no query, no recursion, cursor untouched. -/
theorem castRay_depth_limit_witness :
    (1 : ℤ) > optA.maxDepth ∧
      castRay rngZero emptyScene optA 0 0 1 5 =
        some ⟨optA.backgroundColor, 5, 0, 0⟩ := by
  have h : (1 : ℤ) > optA.maxDepth := by norm_num [optA]
  exact ⟨h, castRay_depth_limit rngZero emptyScene optA 0 0 1 5 h⟩

/-! ## C3: the emissive short-circuit -/

/-- C3.  If the depth guard passes and the intersection reports a hit
whose material has `self_luminous` set, `castRay` returns exactly
`ka * Color` (the emissive intensity times the surface base color) after
its single intersection query and performs no recursive call, irrespective
of the material's other flags. -/
theorem castRay_emissive (rng : ℕ → ℝ) (scene : Scene) (options : Options)
    (orig dir : Vec3) (depth : ℤ) (pos : ℕ) (hit : Hit)
    (hd : depth ≤ options.maxDepth)
    (hhit : scene.intersect orig dir = some hit)
    (hlum : (hit.obj.getSurfaceProperties (orig + dir * hit.t) dir hit.index
        hit.uv).material.self_luminous = true) :
    castRay rng scene options orig dir depth pos =
      some ⟨(hit.obj.getSurfaceProperties (orig + dir * hit.t) dir hit.index
          hit.uv).material.ka *
        (hit.obj.getSurfaceProperties (orig + dir * hit.t) dir hit.index
          hit.uv).color, pos, 1, 0⟩ := by
  have hd' : ¬ depth > options.maxDepth := not_lt.mpr hd
  rw [castRay, castRayBound_succ]
  simp only [castRayF, castRayStep]
  rw [if_neg hd']
  simp only [hhit]
  rw [if_pos hlum]

/-- Witness for C3 on the concrete emissive scene. -/
theorem castRay_emissive_witness :
    (0 : ℤ) ≤ optA.maxDepth ∧
      emissiveScene.intersect 0 0 = some ⟨1, 0, ((0 : ℝ), (0 : ℝ)), emissiveObj⟩ ∧
      castRay rngZero emissiveScene optA 0 0 0 7 =
        some ⟨emissiveMat.ka * Vec3.mk 1 1 1, 7, 1, 0⟩ := by
  have hd : (0 : ℤ) ≤ optA.maxDepth := by norm_num [optA]
  have h2 : emissiveScene.intersect 0 0 =
      some ⟨1, 0, ((0 : ℝ), (0 : ℝ)), emissiveObj⟩ := rfl
  refine ⟨hd, h2, ?_⟩
  have := castRay_emissive rngZero emissiveScene optA 0 0 0 7
    ⟨1, 0, ((0 : ℝ), (0 : ℝ)), emissiveObj⟩ hd h2 rfl
  exact this

/-! ## C4: background returned on miss or inert hit -/

/-- C4.  With the depth guard passed, `castRay` returns exactly the
background color (after its single intersection query, with no recursion)
whenever the scene reports no hit, and also whenever it reports a hit
whose material has none of the four flags set. -/
theorem castRay_background_cases (rng : ℕ → ℝ) (scene : Scene)
    (options : Options) (orig dir : Vec3) (depth : ℤ) (pos : ℕ)
    (hd : depth ≤ options.maxDepth)
    (h : scene.intersect orig dir = none ∨
      ∃ hit, scene.intersect orig dir = some hit ∧
        ((hit.obj.getSurfaceProperties (orig + dir * hit.t) dir hit.index
            hit.uv).material.self_luminous = false ∧
         (hit.obj.getSurfaceProperties (orig + dir * hit.t) dir hit.index
            hit.uv).material.diffuse = false ∧
         (hit.obj.getSurfaceProperties (orig + dir * hit.t) dir hit.index
            hit.uv).material.specular = false ∧
         (hit.obj.getSurfaceProperties (orig + dir * hit.t) dir hit.index
            hit.uv).material.transparent = false)) :
    castRay rng scene options orig dir depth pos =
      some ⟨options.backgroundColor, pos, 1, 0⟩ := by
  have hd' : ¬ depth > options.maxDepth := not_lt.mpr hd
  rw [castRay, castRayBound_succ]
  simp only [castRayF, castRayStep]
  rw [if_neg hd']
  rcases h with hmiss | ⟨hit, hhit, h1, h2, h3, h4⟩
  · simp only [hmiss]
  · simp only [hhit, h1, h2, h3, h4, Bool.false_eq_true, if_false,
      Option.bind_some]

/-- Witness for C4 on the empty scene. -/
theorem castRay_background_cases_witness :
    (0 : ℤ) ≤ optA.maxDepth ∧ emptyScene.intersect 0 0 = none ∧
      castRay rngZero emptyScene optA 0 0 0 3 =
        some ⟨optA.backgroundColor, 3, 1, 0⟩ := by
  have hd : (0 : ℤ) ≤ optA.maxDepth := by norm_num [optA]
  exact ⟨hd, rfl,
    castRay_background_cases rngZero emptyScene optA 0 0 0 3 hd (Or.inl rfl)⟩

/-! ## C10: independence from `options.bias` -/

/-- Core of C10: `castRayF` never reads the `bias` field (the bias offset
and the `outside` test in the transparent branch are dead computations),
so two option records differing only in `bias` produce identical results
at every fuel. -/
theorem castRayF_bias_irrelevant (rng : ℕ → ℝ) (scene : Scene)
    (w h : ℕ) (fov : ℝ) (c2w : Mat44) (md : ℤ) (bg : Vec3) (b1 b2 : ℝ) :
    ∀ fuel orig dir depth pos,
      castRayF rng scene ⟨w, h, fov, c2w, md, bg, b1⟩ fuel orig dir depth pos =
        castRayF rng scene ⟨w, h, fov, c2w, md, bg, b2⟩ fuel orig dir depth pos := by
  intro fuel
  induction fuel with
  | zero => intro orig dir depth pos; rfl
  | succ f ih =>
    intro orig dir depth pos
    simp only [castRayF, castRayStep, ih]

/-- C10.  The result of `castRay` (and therefore of `render`) is
independent of `options.bias`: changing only the `bias` field changes
neither any `castRay` result nor the rendered pixel buffer, because the
bias offset (and the `outside` test) computed in the transparent branch is
never applied to any recursion origin. -/
theorem bias_independence (rng : ℕ → ℝ) (scene : Scene) (o : Options) (b : ℝ) :
    (∀ orig dir depth pos,
      castRay rng scene { o with bias := b } orig dir depth pos =
        castRay rng scene o orig dir depth pos) ∧
    renderList rng scene { o with bias := b } = renderList rng scene o := by
  obtain ⟨w, h, fov, c2w, md, bg, b0⟩ := o
  have hcast : ∀ orig dir depth pos,
      castRay rng scene ⟨w, h, fov, c2w, md, bg, b⟩ orig dir depth pos =
        castRay rng scene ⟨w, h, fov, c2w, md, bg, b0⟩ orig dir depth pos := by
    intro orig dir depth pos
    rw [castRay, castRay]
    exact castRayF_bias_irrelevant rng scene w h fov c2w md bg b b0 _ orig dir
      depth pos
  have hT : ∀ orig dir depth pos,
      castRayT rng scene ⟨w, h, fov, c2w, md, bg, b⟩ orig dir depth pos =
        castRayT rng scene ⟨w, h, fov, c2w, md, bg, b0⟩ orig dir depth pos := by
    intro orig dir depth pos
    rw [castRayT, castRayT, hcast]
  refine ⟨hcast, ?_⟩
  have hco : cameraOrigin ⟨w, h, fov, c2w, md, bg, b⟩ =
      cameraOrigin ⟨w, h, fov, c2w, md, bg, b0⟩ := rfl
  have hpd : ∀ i j, primaryDir ⟨w, h, fov, c2w, md, bg, b⟩ i j =
      primaryDir ⟨w, h, fov, c2w, md, bg, b0⟩ i j := fun _ _ => rfl
  have hrow : ∀ j n pos,
      renderRow rng scene ⟨w, h, fov, c2w, md, bg, b⟩ j n pos =
        renderRow rng scene ⟨w, h, fov, c2w, md, bg, b0⟩ j n pos := by
    intro j n
    induction n with
    | zero => intro pos; rfl
    | succ k ih =>
      intro pos
      simp only [renderRow, hco, hpd, hT, ih]
  have hrows : ∀ n pos,
      renderRows rng scene ⟨w, h, fov, c2w, md, bg, b⟩ n pos =
        renderRows rng scene ⟨w, h, fov, c2w, md, bg, b0⟩ n pos := by
    intro n
    induction n with
    | zero => intro pos; rfl
    | succ k ih =>
      intro pos
      simp only [renderRows, hrow, ih]
  rw [renderList, renderList, hrows]

/-! ## C2: termination of the recursion, bounded by `maxDepth` -/

theorem bindMono {α β : Type} {o1 o2 : Option α} {f1 f2 : α → Option β}
    (ho : ∀ a, o1 = some a → o2 = some a)
    (hf : ∀ a b, f1 a = some b → f2 a = some b) :
    ∀ r, o1.bind f1 = some r → o2.bind f2 = some r := by
  intro r h
  cases h1 : o1 with
  | none => rw [h1] at h; exact absurd h (by simp)
  | some a =>
    rw [h1] at h
    simp only [Option.some_bind] at h
    rw [ho a h1]
    simp only [Option.some_bind]
    exact hf a r h

theorem mapMono {α β : Type} {o1 o2 : Option α} {g : α → β}
    (ho : ∀ a, o1 = some a → o2 = some a) :
    ∀ r, o1.map g = some r → o2.map g = some r := by
  intro r h
  cases h1 : o1 with
  | none => rw [h1] at h; exact absurd h (by simp)
  | some a =>
    rw [h1] at h
    rw [ho a h1]
    exact h

theorem iteMono {c : Prop} [Decidable c] {α : Type} {x1 x2 y1 y2 : Option α}
    (hx : ∀ r, x1 = some r → x2 = some r)
    (hy : ∀ r, y1 = some r → y2 = some r) :
    ∀ r, (if c then x1 else y1) = some r → (if c then x2 else y2) = some r := by
  intro r h
  by_cases hc : c
  · rw [if_pos hc] at h ⊢; exact hx r h
  · rw [if_neg hc] at h ⊢; exact hy r h

theorem bindSome {α β : Type} {o : Option α} {f : α → Option β}
    (ho : ∃ a, o = some a) (hf : ∀ a, ∃ b, f a = some b) :
    ∃ b, o.bind f = some b := by
  obtain ⟨a, ha⟩ := ho
  obtain ⟨b, hb⟩ := hf a
  exact ⟨b, by rw [ha]; simpa⟩

theorem mapSome {α β : Type} {o : Option α} {g : α → β}
    (ho : ∃ a, o = some a) : ∃ b, o.map g = some b := by
  obtain ⟨a, ha⟩ := ho
  exact ⟨g a, by rw [ha]; rfl⟩

theorem iteSome {c : Prop} [Decidable c] {α : Type} {x y : Option α}
    (hx : ∃ r, x = some r) (hy : ∃ r, y = some r) :
    ∃ r, (if c then x else y) = some r := by
  by_cases hc : c
  · rw [if_pos hc]; exact hx
  · rw [if_neg hc]; exact hy

/-- A success of `diffuseLoop` is preserved when the recursive
continuation is replaced by one agreeing on every success. -/
theorem diffuseLoop_mono (rng : ℕ → ℝ)
    (K1 K2 : Vec3 → Vec3 → ℕ → Option RayResult) (hp hn nt nb : Vec3)
    (hK : ∀ o d p r', K1 o d p = some r' → K2 o d p = some r') :
    ∀ n acc pos q c r,
      diffuseLoop rng K1 hp hn nt nb n acc pos q c = some r →
      diffuseLoop rng K2 hp hn nt nb n acc pos q c = some r := by
  intro n
  induction n with
  | zero => intro acc pos q c r h; exact h
  | succ k ih =>
    intro acc pos q c r h
    simp only [diffuseLoop] at h ⊢
    cases h1 : K1 hp (sampleWorld (uniformSampleHemisphere (rng pos)
        (rng (pos + 1))) nb hn nt) (pos + 2) with
    | none =>
      simp only [h1] at h
      exact absurd h (by simp)
    | some res =>
      simp only [h1] at h
      simp only [hK _ _ _ _ h1]
      exact ih _ _ _ _ _ h

/-- Lemma: `diffuseLoop` succeeds whenever the continuation always succeeds. -/
theorem diffuseLoop_some (rng : ℕ → ℝ)
    (K : Vec3 → Vec3 → ℕ → Option RayResult) (hp hn nt nb : Vec3)
    (hK : ∀ o d p, ∃ r, K o d p = some r) :
    ∀ n acc pos q c, ∃ r, diffuseLoop rng K hp hn nt nb n acc pos q c = some r := by
  intro n
  induction n with
  | zero => intro acc pos q c; exact ⟨_, rfl⟩
  | succ k ih =>
    intro acc pos q c
    obtain ⟨res, hres⟩ := hK hp (sampleWorld (uniformSampleHemisphere (rng pos)
      (rng (pos + 1))) nb hn nt) (pos + 2)
    simp only [diffuseLoop, hres]
    exact ih _ _ _ _

/-- A success of one `castRay` level is preserved when the recursive
continuation is replaced by one agreeing on every success. -/
theorem castRayStep_mono (rng : ℕ → ℝ) (scene : Scene) (options : Options)
    (K1 K2 : Vec3 → Vec3 → ℤ → ℕ → Option RayResult)
    (orig dir : Vec3) (depth : ℤ) (pos : ℕ) (r : RayResult)
    (hK : ∀ o d dd p r', K1 o d dd p = some r' → K2 o d dd p = some r')
    (h : castRayStep rng scene options K1 orig dir depth pos = some r) :
    castRayStep rng scene options K2 orig dir depth pos = some r := by
  simp only [castRayStep] at h ⊢
  by_cases hg : depth > options.maxDepth
  · rw [if_pos hg] at h ⊢; exact h
  · rw [if_neg hg] at h ⊢
    cases hint : scene.intersect orig dir with
    | none => simp only [hint] at h ⊢; exact h
    | some hit =>
      simp only [hint] at h ⊢
      by_cases hlum : ((hit.obj.getSurfaceProperties (orig + dir * hit.t) dir
          hit.index hit.uv).material.self_luminous = true)
      · rw [if_pos hlum] at h ⊢; exact h
      · rw [if_neg hlum] at h ⊢
        refine bindMono ?_ ?_ r h
        · intro a ha
          refine bindMono ?_ ?_ a ha
          · intro a1 ha1
            refine iteMono ?_ (fun r2 h2 => h2) a1 ha1
            intro r1 h1
            refine mapMono ?_ r1 h1
            intro b hb
            exact diffuseLoop_mono rng _ _ _ _ _ _
              (fun o d p r2 h2 => hK o d (depth + 1) p r2 h2) 128 0 pos 0 0 b hb
          · intro s1 b hb
            exact iteMono
              (fun r2 h2 => mapMono (fun li hli => hK _ _ _ _ li hli) r2 h2)
              (fun r2 h2 => h2) b hb
        · intro s2 b hb
          refine iteMono ?_ (fun r2 h2 => h2) b hb
          intro r2 h2
          refine bindMono (fun rc hrc => hK _ _ _ _ rc hrc) ?_ r2 h2
          intro rc rl hrl
          exact mapMono (fun x hx => hK _ _ _ _ x hx) rl hrl

/-- One `castRay` level succeeds whenever every recursive call at
`depth + 1` succeeds. -/
theorem castRayStep_some (rng : ℕ → ℝ) (scene : Scene) (options : Options)
    (K : Vec3 → Vec3 → ℤ → ℕ → Option RayResult)
    (orig dir : Vec3) (depth : ℤ) (pos : ℕ)
    (hK : ∀ o d p, ∃ r, K o d (depth + 1) p = some r) :
    ∃ r, castRayStep rng scene options K orig dir depth pos = some r := by
  simp only [castRayStep]
  by_cases hg : depth > options.maxDepth
  · rw [if_pos hg]; exact ⟨_, rfl⟩
  · rw [if_neg hg]
    cases hint : scene.intersect orig dir with
    | none => simp only [hint]; exact ⟨_, rfl⟩
    | some hit =>
      simp only [hint]
      by_cases hlum : ((hit.obj.getSurfaceProperties (orig + dir * hit.t) dir
          hit.index hit.uv).material.self_luminous = true)
      · rw [if_pos hlum]; exact ⟨_, rfl⟩
      · rw [if_neg hlum]
        refine bindSome (bindSome (iteSome (mapSome ?_) ⟨_, rfl⟩) ?_) ?_
        · exact diffuseLoop_some rng _ _ _ _ _ (fun o d p => hK o d p) 128 0 pos 0 0
        · intro s1
          exact iteSome (mapSome (hK _ _ _)) ⟨_, rfl⟩
        · intro s2
          refine iteSome (bindSome (hK _ _ _) ?_) ⟨_, rfl⟩
          intro rc
          exact mapSome (hK _ _ _)

/-- Fuel monotonicity: a result obtained with some fuel is stable under
adding fuel. -/
theorem castRayF_mono (rng : ℕ → ℝ) (scene : Scene) (options : Options) :
    ∀ fuel (orig dir : Vec3) (depth : ℤ) (pos : ℕ) (r : RayResult),
      castRayF rng scene options fuel orig dir depth pos = some r →
      castRayF rng scene options (fuel + 1) orig dir depth pos = some r := by
  intro fuel
  induction fuel with
  | zero =>
    intro orig dir depth pos r h
    exact absurd h (by simp [castRayF])
  | succ f ih =>
    intro orig dir depth pos r h
    simp only [castRayF] at h ⊢
    exact castRayStep_mono rng scene options _ _ orig dir depth pos r
      (fun o d dd p r' h' => ih o d dd p r' h') h

/-- Fuel `(maxDepth + 2 - depth).toNat` suffices: every recursive call
raises `depth` by one and the guard fires at `depth = maxDepth + 1`. -/
theorem castRayF_some (rng : ℕ → ℝ) (scene : Scene) (options : Options) :
    ∀ fuel (depth : ℤ), (options.maxDepth + 2 - depth).toNat ≤ fuel → 0 < fuel →
      ∀ (orig dir : Vec3) (pos : ℕ),
        ∃ r, castRayF rng scene options fuel orig dir depth pos = some r := by
  intro fuel
  induction fuel with
  | zero => intro depth h1 h2; exact absurd h2 (lt_irrefl 0)
  | succ f ih =>
    intro depth h1 h2 orig dir pos
    simp only [castRayF]
    by_cases hg : depth > options.maxDepth
    · exact ⟨_, by simp only [castRayStep]; rw [if_pos hg]⟩
    · have hb1 : (options.maxDepth + 2 - (depth + 1)).toNat ≤ f := by omega
      have hb2 : 0 < f := by omega
      exact castRayStep_some rng scene options _ orig dir depth pos
        (fun o d p => ih (depth + 1) hb1 hb2 o d p)

/-- C2.  `castRay` terminates on every input with `depth ≥ 0`: every
recursive call passes `depth + 1`, so along any call chain the depth
guard makes the recursion well-founded with `options.maxDepth` as the sole
bound — formally, with fuel `castRayBound options depth` the fuel-indexed
embedding yields a result, and every larger fuel yields the same result. -/
theorem castRay_terminates (rng : ℕ → ℝ) (scene : Scene) (options : Options)
    (orig dir : Vec3) (depth : ℤ) (pos : ℕ) (h : (0 : ℤ) ≤ depth) :
    ∃ r, castRay rng scene options orig dir depth pos = some r ∧
      ∀ fuel, castRayBound options depth ≤ fuel →
        castRayF rng scene options fuel orig dir depth pos = some r := by
  obtain ⟨r, hr⟩ := castRayF_some rng scene options (castRayBound options depth)
    depth (le_max_right _ _) (castRayBound_pos options depth) orig dir pos
  refine ⟨r, hr, ?_⟩
  intro fuel hfuel
  induction fuel, hfuel using Nat.le_induction with
  | base => exact hr
  | succ n hn ihn => exact castRayF_mono rng scene options n orig dir depth pos r ihn

/-- Witness for C2 on a concrete input. -/
theorem castRay_terminates_witness :
    (0 : ℤ) ≤ 0 ∧
      ∃ r, castRay rngZero emptyScene optA 0 0 0 0 = some r ∧
        ∀ fuel, castRayBound optA 0 ≤ fuel →
          castRayF rngZero emptyScene optA fuel 0 0 0 0 = some r :=
  ⟨le_refl 0, castRay_terminates rngZero emptyScene optA 0 0 0 0 (le_refl 0)⟩

/-! ## C5: `render` writes one pixel per slot in row-major order, with the
random cursor threaded through the pixels -/

theorem pixSeq_add (rng : ℕ → ℝ) (scene : Scene) (options : Options) :
    ∀ a b start pos,
      pixSeq rng scene options start pos (a + b) =
        ((pixSeq rng scene options start pos a).1 ++
          (pixSeq rng scene options (start + a)
            (pixSeq rng scene options start pos a).2 b).1,
         (pixSeq rng scene options (start + a)
            (pixSeq rng scene options start pos a).2 b).2) := by
  intro a
  induction a with
  | zero =>
    intro b start pos
    simp [pixSeq]
  | succ k ih =>
    intro b start pos
    have h1 : k + 1 + b = (k + b) + 1 := by omega
    rw [h1]
    simp only [pixSeq]
    rw [ih b (start + 1)]
    have h2 : start + 1 + k = start + (k + 1) := by omega
    rw [h2]
    simp [List.cons_append]

theorem renderRow_pixSeq (rng : ℕ → ℝ) (scene : Scene) (options : Options)
    (j : ℕ) : ∀ n pos, n ≤ options.width →
      renderRow rng scene options j n pos =
        pixSeq rng scene options
          (j * options.width + (options.width - n)) pos n := by
  intro n
  induction n with
  | zero => intro pos _; rfl
  | succ k ih =>
    intro pos hn
    have hwpos : 0 < options.width := by omega
    have hi : options.width - (k + 1) < options.width := by omega
    have hmod : (j * options.width + (options.width - (k + 1))) %
        options.width = options.width - (k + 1) := by
      rw [Nat.add_comm, Nat.add_mul_mod_self_right, Nat.mod_eq_of_lt hi]
    have hdiv : (j * options.width + (options.width - (k + 1))) /
        options.width = j := by
      rw [Nat.add_comm, Nat.add_mul_div_right _ _ hwpos,
        Nat.div_eq_of_lt hi, Nat.zero_add]
    simp only [renderRow, pixSeq, hmod, hdiv]
    have hs : j * options.width + (options.width - (k + 1)) + 1 =
        j * options.width + (options.width - k) := by omega
    rw [ih _ (by omega), hs]

theorem renderRows_pixSeq (rng : ℕ → ℝ) (scene : Scene) (options : Options) :
    ∀ n pos, n ≤ options.height →
      renderRows rng scene options n pos =
        pixSeq rng scene options
          ((options.height - n) * options.width) pos (n * options.width) := by
  intro n
  induction n with
  | zero => intro pos _; simp [renderRows, pixSeq]
  | succ k ih =>
    intro pos hn
    simp only [renderRows]
    rw [renderRow_pixSeq rng scene options _ options.width pos (le_refl _)]
    have h0 : (options.height - (k + 1)) * options.width +
        (options.width - options.width) =
        (options.height - (k + 1)) * options.width := by omega
    rw [h0]
    have h1 : (k + 1) * options.width = options.width + k * options.width := by
      ring
    rw [h1, pixSeq_add rng scene options options.width (k * options.width)]
    have h2 : (options.height - (k + 1)) * options.width + options.width =
        (options.height - k) * options.width := by
      have h3 : options.height - k = (options.height - (k + 1)) + 1 := by omega
      rw [h3]
      ring
    rw [h2, ih _ (by omega)]

theorem pixSeq_renderPos (rng : ℕ → ℝ) (scene : Scene) (options : Options) :
    ∀ cnt s,
      pixSeq rng scene options s (renderPos rng scene options s) cnt =
        ((List.range cnt).map fun m =>
          (castRayT rng scene options (cameraOrigin options)
            (primaryDir options ((s + m) % options.width)
              ((s + m) / options.width)) 0
            (renderPos rng scene options (s + m))).color,
         renderPos rng scene options (s + cnt)) := by
  intro cnt
  induction cnt with
  | zero => intro s; simp [pixSeq]
  | succ k ih =>
    intro s
    simp only [pixSeq]
    have hr : (castRayT rng scene options (cameraOrigin options)
        (primaryDir options (s % options.width) (s / options.width)) 0
        (renderPos rng scene options s)).pos =
        renderPos rng scene options (s + 1) := rfl
    rw [hr, ih (s + 1)]
    rw [List.range_succ_eq_map, List.map_cons, List.map_map]
    simp only [Prod.mk.injEq, List.cons.injEq]
    refine ⟨⟨?_, ?_⟩, ?_⟩
    · simp
    · apply List.map_congr_left
      intro m _
      have h1 : s + 1 + m = s + (m + 1) := by omega
      simp only [Function.comp_apply, h1]
    · have h2 : s + 1 + k = s + (k + 1) := by omega
      rw [h2]

/-- C5 amended.  `render` writes exactly one color into each of the
`width*height` pixel slots, once each, in row-major order, each equal to
the depth-0 `castRay` result for that pixel's primary ray *evaluated with
the random-generator state left behind by the preceding pixels*
(`renderPos`); apart from this shared generator state the pixels are
independent. -/
theorem render_writes_spec (rng : ℕ → ℝ) (scene : Scene) (options : Options) :
    renderList rng scene options =
      (List.range (options.width * options.height)).map fun k =>
        (castRayT rng scene options (cameraOrigin options)
          (primaryDir options (k % options.width) (k / options.width)) 0
          (renderPos rng scene options k)).color := by
  rw [renderList,
    renderRows_pixSeq rng scene options options.height 0 (le_refl _)]
  have h0 : (options.height - options.height) * options.width = 0 := by
    simp
  rw [h0]
  have hrp0 : renderPos rng scene options 0 = 0 := rfl
  nth_rewrite 2 [← hrp0]
  rw [pixSeq_renderPos rng scene options (options.height * options.width) 0]
  simp only [Nat.zero_add]
  rw [Nat.mul_comm options.height options.width]

@[simp] theorem Vec3.zero_smul_vec (v : Vec3) : (0 : ℝ) * v = 0 := by
  ext <;> simp

@[simp] theorem Vec3.add_zero_vec (v : Vec3) : v + 0 = v := by
  ext <;> simp

/-- Exact evaluation of the diffuse sampling loop when every recursive
call returns the background color with an untouched cursor (as happens
one level below `maxDepth`) and the random stream is constant on the
consumed window: each iteration draws two numbers and adds
`cst * bg / pdf`. -/
theorem diffuseLoop_constEval (rng : ℕ → ℝ)
    (K : Vec3 → Vec3 → ℕ → Option RayResult) (hp hn nt nb bg : Vec3) (cst : ℝ)
    (hK : ∀ o d p, K o d p = some ⟨bg, p, 0, 0⟩) :
    ∀ n acc pos q c, (∀ m, m < 2 * n → rng (pos + m) = cst) →
      diffuseLoop rng K hp hn nt nb n acc pos q c =
        some ⟨acc + ((n : ℝ) * (cst * (2 * Real.pi))) * bg,
          pos + 2 * n, q, c + n⟩ := by
  intro n
  induction n with
  | zero =>
    intro acc pos q c _
    simp [diffuseLoop]
  | succ k ih =>
    intro acc pos q c hw
    simp only [diffuseLoop, hK]
    have hr1 : rng pos = cst := by
      have := hw 0 (by omega)
      simpa using this
    have hrec := ih (acc + rng pos * bg / pdfVal) (pos + 2) q (c + 1)
      (fun m hm => by
        have := hw (m + 2) (by omega)
        rw [← this]
        congr 1
        omega)
    simp only [Nat.add_zero]
    rw [hrec]
    simp only [Option.some.injEq, RayResult.mk.injEq]
    refine ⟨?_, by omega, by trivial, by omega⟩
    rw [hr1]
    push_cast
    ext <;>
      (simp [pdfVal]
       field_simp
       ring)

/-- Exact evaluation of a depth-0 `castRay` against `diffuseScene` with
`optA` (`maxDepth = 0`): the 128 samples each consume two random draws and
every depth-1 recursion returns the background immediately, so the call
consumes exactly 256 draws and returns `bg + (cst/pdf) * kd` for a stream
constant equal to `cst` on the consumed window. -/
theorem castRay_diffuse_eval (rng : ℕ → ℝ) (orig dir : Vec3) (pos : ℕ)
    (cst : ℝ) (hw : ∀ m, m < 256 → rng (pos + m) = cst) :
    castRay rng diffuseScene optA orig dir 0 pos =
      some ⟨⟨1 + 2 * Real.pi * cst, 1 + 2 * Real.pi * cst,
          1 + 2 * Real.pi * cst⟩, pos + 256, 1, 128⟩ := by
  have hb : castRayBound optA 0 = 2 := rfl
  rw [castRay, hb]
  have hK : ∀ o d p, castRayF rng diffuseScene optA 1 o d (0 + 1) p =
      some ⟨optA.backgroundColor, p, 0, 0⟩ := by
    intro o d p
    simp only [castRayF, castRayStep]
    rw [if_pos (by norm_num [optA])]
  have hsucc : castRayF rng diffuseScene optA 2 orig dir 0 pos =
      castRayStep rng diffuseScene optA (castRayF rng diffuseScene optA 1)
        orig dir 0 pos := rfl
  rw [hsucc]
  simp only [castRayStep]
  rw [if_neg (by norm_num [optA] : ¬ (0 : ℤ) > optA.maxDepth)]
  have hint : diffuseScene.intersect orig dir =
      some ⟨1, 0, ((0 : ℝ), (0 : ℝ)), diffuseObj⟩ := rfl
  simp only [hint]
  have hprops : diffuseObj.getSurfaceProperties (orig + dir * (1 : ℝ)) dir 0
      ((0 : ℝ), (0 : ℝ)) =
      ⟨⟨0, 1, 0⟩, ((0 : ℝ), (0 : ℝ)), ⟨1, 1, 1⟩, diffuseMat⟩ := rfl
  simp only [hprops]
  simp only [show diffuseMat.self_luminous = false from rfl,
    show diffuseMat.diffuse = true from rfl,
    show diffuseMat.specular = false from rfl,
    show diffuseMat.transparent = false from rfl,
    show diffuseMat.kd = ⟨1, 1, 1⟩ from rfl,
    Bool.false_eq_true, if_false, eq_self_iff_true, if_true]
  rw [diffuseLoop_constEval rng _ _ _ _ _ optA.backgroundColor cst hK 128 0
    pos 0 0 (fun m hm => hw m (by omega))]
  simp only [Option.map_some', Option.some_bind, Option.some.injEq,
    RayResult.mk.injEq]
  refine ⟨?_, trivial, trivial, trivial⟩
  ext <;>
    (simp [optA]
     push_cast
     ring)

/-- C5 counterexample: on a 2x1 render of an all-diffuse scene, the color
written for pixel 1 differs from the depth-0 `castRay` result for pixel
1's primary ray evaluated from the initial random-generator state — the
second pixel's value depends on the first pixel's computation through the
shared random generator, refuting the claimed cross-pixel independence. -/
theorem render_pixel_dependency_cex :
    (renderList cexRng diffuseScene optA).get? 1 ≠
      some (castRayT cexRng diffuseScene optA (cameraOrigin optA)
        (primaryDir optA 1 0) 0 0).color := by
  have hw0 : ∀ m, m < 256 → cexRng (0 + m) = 0 := by
    intro m hm
    simp only [cexRng]
    rw [if_pos (by omega)]
  have hw1 : ∀ m, m < 256 → cexRng (256 + m) = 1 / 2 := by
    intro m hm
    simp only [cexRng]
    rw [if_neg (by omega)]
  have h0 : castRayT cexRng diffuseScene optA (cameraOrigin optA)
      (primaryDir optA 0 0) 0 0 =
      ⟨⟨1 + 2 * Real.pi * 0, 1 + 2 * Real.pi * 0, 1 + 2 * Real.pi * 0⟩,
        0 + 256, 1, 128⟩ := by
    rw [castRayT, castRay_diffuse_eval cexRng (cameraOrigin optA)
      (primaryDir optA 0 0) 0 0 hw0]
    rfl
  have h1 : castRayT cexRng diffuseScene optA (cameraOrigin optA)
      (primaryDir optA 1 0) 0 256 =
      ⟨⟨1 + 2 * Real.pi * (1 / 2), 1 + 2 * Real.pi * (1 / 2),
          1 + 2 * Real.pi * (1 / 2)⟩, 256 + 256, 1, 128⟩ := by
    rw [castRayT, castRay_diffuse_eval cexRng (cameraOrigin optA)
      (primaryDir optA 1 0) 256 (1 / 2) hw1]
    rfl
  have h2 : castRayT cexRng diffuseScene optA (cameraOrigin optA)
      (primaryDir optA 1 0) 0 0 =
      ⟨⟨1 + 2 * Real.pi * 0, 1 + 2 * Real.pi * 0, 1 + 2 * Real.pi * 0⟩,
        0 + 256, 1, 128⟩ := by
    rw [castRayT, castRay_diffuse_eval cexRng (cameraOrigin optA)
      (primaryDir optA 1 0) 0 0 hw0]
    rfl
  have hlist : renderList cexRng diffuseScene optA =
      [⟨1 + 2 * Real.pi * 0, 1 + 2 * Real.pi * 0, 1 + 2 * Real.pi * 0⟩,
       ⟨1 + 2 * Real.pi * (1 / 2), 1 + 2 * Real.pi * (1 / 2),
        1 + 2 * Real.pi * (1 / 2)⟩] := by
    rw [renderList]
    simp only [show optA.height = 1 from rfl, show optA.width = 2 from rfl,
      renderRows, renderRow, h0, h1, List.append_nil]
  rw [hlist, h2]
  intro hcontra
  simp only [List.get?, Option.some.injEq, Vec3.mk.injEq] at hcontra
  obtain ⟨hx, -, -⟩ := hcontra
  have hpi : Real.pi = 0 := by linarith
  exact Real.pi_ne_zero hpi
